import Mathlib

/-!
Shallow embedding of the polynomial-ring arithmetic engine of
openfhe-development-rs (src/src/core/lattice/poly.rs, params.rs,
src/src/core/math/vec_mod.rs, discretegaussian.rs, base_sampler.rs).

Machine integers (crypto_bigint U64 / Rust u64, usize) are modeled as Nat,
with explicit `% 2^64` or overflow guards where the source's fixed width
matters.  A Rust panic (failed assert, out-of-bounds index, `expect` on an
empty CtOption, arithmetic overflow in crypto_bigint, `todo!()`) is modeled
as `none : Option _`; fallible paths return `Option`.
-/

namespace OpenFheRs

/-- two to the sixty-fourth power, the wrap-around bound of U64/u64/usize. -/
def U64_SIZE : Nat := 2 ^ 64

/-- crypto_bigint U64 multiplication (plain `*` / `*=`): panics on overflow,
so the embedding returns `none` when the mathematical product does not fit. -/
def mulU64 (a b : Nat) : Option Nat :=
  if a * b < U64_SIZE then some (a * b) else none

/-- source `constants.rs`: `PolynomialRingFormat`, default is `Evaluation`. -/
inductive PolynomialRingFormat where
  | Evaluation
  | Coefficient
deriving DecidableEq, Repr

/-- source `params.rs`: `ElementParams` (moduli as plain Nat residue bounds). -/
structure ElementParams where
  ringDimension : Nat
  cyclotomicOrder : Nat
  ciphertextModulus : Nat
  rootOfUnity : Nat
  bigCiphertextModulus : Nat
  bigRootOfUnity : Nat
deriving DecidableEq, Repr

/-- source `poly.rs`: `Poly` — format, params and the value vector.  The two
cached `MontyParams` fields are determined by the two moduli inside `params`
and therefore carry no extra state; values are stored as plain residues
(the Montgomery representation is an isomorphism we read through
`MontyForm::retrieve`). -/
structure Poly where
  format : PolynomialRingFormat
  params : ElementParams
  values : List Nat
deriving DecidableEq, Repr

/-- source `poly.rs`: `NttPoly` — the transient bit-reversed evaluation form. -/
structure NttPoly where
  format : PolynomialRingFormat
  params : ElementParams
  values : List Nat
deriving DecidableEq, Repr

/-- modular addition on residues, the semantics of `MontyForm` addition /
`Uint::add_mod` read back through `retrieve`. -/
def addMod (a b q : Nat) : Nat := (a + b) % q

/-- modular subtraction on residues (semantics of `MontyForm` subtraction). -/
def subMod (a b q : Nat) : Nat := (a % q + (q - b % q)) % q

/-- modular exponentiation, the semantics of `MontyForm::pow`. -/
def powMod (b e q : Nat) : Nat := b ^ e % q

/-- modular inverse as an Option, the semantics of `MontyForm::inv` /
`inv_odd_mod` returning a `CtOption`: `some` the inverse when it exists. -/
def modInv (a q : Nat) : Option Nat :=
  (List.range q).find? (fun b => a * b % q == 1)

/-- guarded list update: Rust `values[i] = v` panics when `i` is out of
bounds, so the embedding yields `none` there. -/
def setOpt {α : Type} (l : List α) (i : Nat) (v : α) : Option (List α) :=
  if i < l.length then some (l.set i v) else none

/-- guarded swap of two list entries, the embedding of `slice::swap` (which
panics when either index is out of bounds). -/
def swapOpt {α : Type} (l : List α) (i j : Nat) : Option (List α) :=
  match l[i]?, l[j]? with
  | some a, some b => some ((l.set i b).set j a)
  | _, _ => none

/-- reversal of the full 64-bit pattern of `i`: the semantics of Rust
`usize::reverse_bits` on a 64-bit platform (all 64 bits are reversed). -/
def revBits64Aux : Nat → Nat → Nat
  | 0, _ => 0
  | w + 1, i => i % 2 * 2 ^ w + revBits64Aux w (i / 2)

/-- Rust `i.reverse_bits()` for `i : usize` (64-bit). -/
def revBits64 (i : Nat) : Nat := revBits64Aux 64 i

/-- source `poly.rs` `bit_reverse_permutation`: for each `i < n` it computes
`rev = i.reverse_bits()` — the FULL 64-bit reversal, not the reversal inside
`bits = n.trailing_zeros()` bits (that local is computed and never used) —
and swaps `values[i]` with `values[rev]` when `i < rev`. -/
def bitReversePermutation {α : Type} (values : List α) : Option (List α) :=
  let n := values.length
  (List.range n).foldlM
    (fun acc i =>
      let rev := revBits64 i
      if i < rev then swapOpt acc i rev else some acc)
    values

/-- innermost butterfly loop of `Poly::ntt` / `NttPoly::inv`
(`for j in 0..half_m`), carrying the running twiddle `omega`.  Reads and
writes at `k + j` and `k + j + half_m` fault (Rust index panic) when out of
bounds. -/
def nttJLoop (q om k hm : Nat) : Nat → Nat → Nat → List Nat → Option (List Nat)
  | 0, _, _, vals => some vals
  | fuel + 1, j, omega, vals =>
    match vals[k + j]?, vals[k + j + hm]? with
    | some x, some y =>
      let t := omega * y % q
      let vals := (vals.set (k + j + hm) (subMod x t q)).set (k + j) (addMod x t q)
      nttJLoop q om k hm fuel (j + 1) (omega * om % q) vals
    | _, _ => none

/-- middle loop of the transform (`for k in (0..order).step_by(step)`). -/
def nttKLoop (q om hm step : Nat) : Nat → Nat → List Nat → Option (List Nat)
  | 0, _, vals => some vals
  | fuel + 1, k, vals => do
    let vals ← nttJLoop q om k hm hm 0 1 vals
    nttKLoop q om hm step fuel (k + step) vals

/-- outer stage loop of the transform (`while m < cyclotomic_order`), with
`m` doubling each stage (`m <<= 1` on U64 wraps at 2^64; a wrapped `m = 0`
makes the `to_nz` expect panic, hence `none`).  `fuel` bounds the number of
stages; with `fuel = 64` it is never exhausted for any order expressible in
the source's usize-as-U64 comparisons. -/
def nttStages (q root order : Nat) : Nat → Nat → List Nat → Option (List Nat)
  | 0, _, _ => none
  | fuel + 1, m, vals =>
    if m < order then
      let hm := m
      let m2 := 2 * m % U64_SIZE
      if m2 = 0 then none
      else
        let expo := order / m2
        let om := powMod root expo q
        match nttKLoop q om hm m2 ((order + m2 - 1) / m2) 0 vals with
        | some vals => nttStages q root order fuel m2 vals
        | none => none
    else some vals

/-- source `poly.rs` `Poly::ntt`: map the values into the Montgomery domain
(read as reduction mod `q`), bit-reverse, then run the butterfly stages with
the parameter set's root of unity. -/
def polyNtt (p : Poly) : Option NttPoly := do
  let q := p.params.ciphertextModulus
  let vals := p.values.map (· % q)
  let vals ← bitReversePermutation vals
  let vals ← nttStages q (p.params.rootOfUnity % q) p.params.cyclotomicOrder 64 1 vals
  return { format := p.format, params := p.params, values := vals }

/-- source `poly.rs` `MulAssign<&NttPoly> for NttPoly`: pointwise Montgomery
product over the zip of the two value vectors (no compatibility check of any
kind; the zip silently stops at the shorter vector). -/
def nttMul (a b : NttPoly) : NttPoly :=
  { a with
    values :=
      (List.zipWith (fun x y => x * y % a.params.ciphertextModulus) a.values b.values)
        ++ a.values.drop b.values.length }

/-- source `poly.rs` `NttPoly::inv`: inverse transform with the inverse root
of unity (an `expect` on `CtOption` — `none` when no inverse exists), then a
final scaling of every entry by the modular inverse of the cyclotomic order. -/
def nttInv (p : NttPoly) : Option Poly := do
  let q := p.params.ciphertextModulus
  let invRoot ← modInv (p.params.rootOfUnity % q) q
  let vals ← bitReversePermutation p.values
  let order := p.params.cyclotomicOrder
  let vals ← nttStages q invRoot order 64 1 vals
  let nInv ← modInv (order % q) q
  return { format := p.format, params := p.params,
           values := vals.map (fun v => v * nInv % q) }

/-- source `poly.rs` `MulAssign<&Poly> for Poly`:
`let res = self.ntt() * rhs.ntt(); *self = res.inv();`. -/
def polyMulAssign (a b : Poly) : Option Poly := do
  let x ← polyNtt a
  let y ← polyNtt b
  nttInv (nttMul x y)

/-- the round trip of claim C1: forward NTT then the inverse transform. -/
def polyNttRoundTrip (p : Poly) : Option Poly := do
  let x ← polyNtt p
  nttInv x

/-- negacyclic convolution, written from the spec's words for the
refinement claim C2: coefficient `k` of the product of `a` and `b` in
`Z_q[x]/(x^N + 1)` is `Σ_{i+j=k} a_i·b_j − Σ_{i+j=k+N} a_i·b_j mod q`. -/
def negacyclicConvolution (a b : List Nat) (q : Nat) : List Nat :=
  let n := a.length
  (List.range n).map (fun k =>
    let s : Int :=
      (List.range n).foldl
        (fun acc i =>
          let ai : Int := a.getD i 0
          if i ≤ k then acc + ai * (b.getD (k - i) 0 : Nat)
          else acc - ai * (b.getD (k + n - i) 0 : Nat))
        0
    (s % (q : Int)).toNat)

/-- source `poly.rs` `Poly::switch_modulus`: overwrites the four
modulus/root fields and reduces every stored value by a PLAIN remainder
`*i %= m` with the new modulus (`NonZero` remainder on `Uint`; the `to_nz`
expect panics when the modulus is zero). -/
def polySwitchModulus (p : Poly) (modulus rootOfUnity modulusArb rootOfUnityArb : Nat) :
    Option Poly :=
  if modulus = 0 then none
  else
    some
      { format := p.format,
        params :=
          { p.params with
            ciphertextModulus := modulus, rootOfUnity := rootOfUnity,
            bigCiphertextModulus := modulusArb, bigRootOfUnity := rootOfUnityArb },
        values := p.values.map (· % modulus) }

/-- source `vec_mod.rs` `RemAssign<&Odd<Uint>> for VecMod`: the
centered-residue modulus-switch rule.  A value above `old_modulus/2` is a
negative residue; increasing the modulus adds the delta to such values,
decreasing it adds `new − old % new` and reduces once more when the result
is still out of range. -/
def vecModRemAssign (values : List Nat) (oldQ newQ : Nat) : List Nat :=
  let halfQ := oldQ / 2
  if newQ > oldQ then
    let diff := newQ - oldQ
    values.map (fun x => if x > halfQ then x + diff else x)
  else
    let diff := newQ - oldQ % newQ
    values.map (fun x =>
      let x := if x > halfQ then x + diff else x
      if x ≥ newQ then x % newQ else x)

/-- bit-length recursion, structurally bounded by the 64-bit width. -/
def natBitsAux : Nat → Nat → Nat
  | 0, _ => 0
  | fuel + 1, n => if n = 0 then 0 else natBitsAux fuel (n / 2) + 1

/-- bit length of a `U64` value: crypto_bigint `Uint::bits`. -/
def u64bits (q : Nat) : Nat := natBitsAux 64 q

/-- floor of log2 on a `u64`: Rust `u64::ilog2` (panics on 0, guarded at
the call sites below). -/
def u64ilog2 (n : Nat) : Nat := u64bits n - 1

/-- digit-accumulation loop of `get_digit_at_index_for_base`
(`while i < base { digit += ((value >> new_index) & 1) * i; ... }`),
with `i` doubling from 1. -/
def digitLoop (value base : Nat) : Nat → Nat → Nat → Nat → Nat
  | 0, _, _, acc => acc
  | fuel + 1, i, ni, acc =>
    if i < base then
      digitLoop value base fuel (2 * i) (ni + 1) (acc + value / 2 ^ ni % 2 * i)
    else acc

/-- source `poly.rs` `Poly::get_digit_at_index_for_base`: reads the single
coefficient `self.values[index]` (panic when out of bounds) and accumulates
the bits starting at bit position `1 + (index − 1)·log2(base)`. -/
def getDigitAtIndexForBase (p : Poly) (index base : Nat) : Option Nat :=
  if base = 0 then none
  else
    let digitLength := u64ilog2 base
    let newIndex := 1 + (index - 1) * digitLength
    (p.values[index]?).map (fun value => digitLoop value base 64 1 newIndex 0)

/-- source `poly.rs` `Poly::base_decompose`: `windows = ⌈bits(q)/base_bits⌉`
(division by a zero `base_bits` panics); the scratch element starts as
`Poly::zero(params)` — a vector of `cyclotomic_order` zeros — takes the
clone's `Coefficient` format, and on window `i` every slot is overwritten
with the single digit `get_digit_at_index_for_base(i + 1, 2^base_bits)`.
With `eval_mode_answer` set the code would call `switch_format`, which is
`todo!()` — an unconditional panic. -/
def polyBaseDecompose (p : Poly) (baseBits : Nat) (evalModeAnswer : Bool) :
    Option (List Poly) :=
  if baseBits = 0 then none
  else
    let m := u64bits p.params.ciphertextModulus
    let windows := m / baseBits + (if m % baseBits = 0 then 0 else 1)
    let x : Poly := { p with format := .Coefficient }
    (List.range windows).mapM (fun i => do
      let t ← getDigitAtIndexForBase x (i + 1) (2 ^ baseBits)
      if evalModeAnswer then none
      else
        return { format := PolynomialRingFormat.Coefficient, params := p.params,
                 values := List.replicate p.params.cyclotomicOrder t })

/-- reconstruction sum of the gadget claim C4, written from the spec's
words: slot `j` of `Σ_i ds[i]·2^(i·b)` reduced mod `q`. -/
def gadgetRecompose (ds : List Poly) (baseBits q len : Nat) : List Nat :=
  (List.range len).map (fun j =>
    ((List.range ds.length).foldl
        (fun acc i => acc + (((ds[i]?).bind (fun d => d.values[j]?)).getD 0) * 2 ^ (i * baseBits))
        0)
      % q)

/-- source `poly.rs` `Poly::automorphism_transform`, Coefficient branch.
Asserts `k` odd and a power-of-two cyclotomic order.  It computes
`log_m = usize::BITS − leading_zeros(m)` (the bit LENGTH of `m`),
`log_n = log_m − 1` and `mask = 2^log_n − 1`; then for `j` in
`1..ring_dimension` with `jk` starting at 0 and stepping by `k`, it writes
`values[jk & mask]`, negating (`modulus − values[j]`, a panicking U64
subtraction on underflow) when bit `log_n` of `jk` is set.  Writes out of
bounds fault.  The Evaluation branch uses a `reverse_bits` helper whose
definition is not present under src/ and is not modeled; this embedding is
the Coefficient branch only and yields `none` on Evaluation input. -/
def automorphismTransformCoeff (p : Poly) (k : Nat) : Option Poly :=
  if k % 2 ≠ 1 then none
  else if ¬ (p.params.cyclotomicOrder ≠ 0 ∧
             2 ^ u64ilog2 p.params.cyclotomicOrder = p.params.cyclotomicOrder) then none
  else
    match p.format with
    | .Evaluation => none
    | .Coefficient =>
      let logm := u64bits p.params.cyclotomicOrder
      let logn := logm - 1
      let q := p.params.ciphertextModulus
      let step := fun (vals : Option (List Nat)) (j : Nat) => do
        let vals ← vals
        let vj ← p.values[j + 1]?
        let jk := j * k
        let idx := jk % 2 ^ logn
        let v ← if jk / 2 ^ logn % 2 = 1 then
                  (if vj ≤ q then some (q - vj) else none)
                else some vj
        setOpt vals idx v
      ((List.range (p.params.ringDimension - 1)).foldl step (some p.values)).map
        (fun vals => { p with values := vals })

/-- source `vec_mod.rs` `AddAssign<&VecMod> for VecMod` value action:
`iter_mut().zip(rhs)` mutates the common prefix of `self` elementwise with
`add_mod` and leaves any remaining tail of `self` untouched. -/
def vecModAdd (a b : List Nat) (q : Nat) : List Nat :=
  (List.zipWith (fun x y => addMod x y q) a b) ++ a.drop b.length

/-- value action of `SubAssign<&VecMod> for VecMod` (`sub_mod` on the zip). -/
def vecModSub (a b : List Nat) (q : Nat) : List Nat :=
  (List.zipWith (fun x y => subMod x y q) a b) ++ a.drop b.length

/-- source `poly.rs` `AddAssign<&Poly> for Poly`: asserts equal `params` and
equal `format` (panic on mismatch); the inner `VecMod` addition then asserts
equal Montgomery parameters, i.e. equal moduli (implied by equal params),
and zips the value vectors with no length check. -/
def polyAddAssign (a b : Poly) : Option Poly :=
  if a.params = b.params then
    if a.format = b.format then
      if a.params.ciphertextModulus = b.params.ciphertextModulus then
        some { a with values := vecModAdd a.values b.values a.params.ciphertextModulus }
      else none
    else none
  else none

/-- source `poly.rs` `SubAssign<&Poly> for Poly` (same checks as addition). -/
def polySubAssign (a b : Poly) : Option Poly :=
  if a.params = b.params then
    if a.format = b.format then
      if a.params.ciphertextModulus = b.params.ciphertextModulus then
        some { a with values := vecModSub a.values b.values a.params.ciphertextModulus }
      else none
    else none
  else none

/-- source `poly.rs` `AddAssign<&U64> for Poly`: in Coefficient format only
`values[0]` is touched (panic when the vector is empty), becoming
`(values[0] + c) mod q`; in Evaluation format every slot gets `+ c mod q`.
Format, params and length are left as they were. -/
def polyScalarAdd (p : Poly) (c : Nat) : Option Poly :=
  let q := p.params.ciphertextModulus
  match p.format with
  | .Coefficient =>
    (p.values[0]?).map (fun v0 => { p with values := p.values.set 0 ((v0 + c) % q) })
  | .Evaluation =>
    some { p with values := p.values.map (fun v => (v + c) % q) }

/-- source `params.rs` `ElementParams::with_big_ciphertext_params`: the only
constructor that fills the record; `ring_dimension = get_totient(order)`.
The totient computation (src `core/utils.rs` `get_totient`, via prime
factorization) is abstracted as the function argument `tot`: it plays no
role in the modulus bookkeeping of the DCRT chain. -/
def withBigCiphertextParams (tot : Nat → Nat) (order q root bigQ bigRoot : Nat) :
    ElementParams :=
  { ringDimension := tot order, cyclotomicOrder := order, ciphertextModulus := q,
    rootOfUnity := root, bigCiphertextModulus := bigQ, bigRootOfUnity := bigRoot }

/-- source `params.rs` `ElementParams::with_ciphertext_root_of_unity`:
delegates with big modulus `1` and big root `0`. -/
def withCiphertextRootOfUnity (tot : Nat → Nat) (order q root : Nat) : ElementParams :=
  withBigCiphertextParams tot order q root 1 0

/-- source `params.rs` `ElementParams::with_modulus`: computes
`root_of_unity(order, modulus)` and delegates.  The root search
(`core/utils.rs` `root_of_unity`; part of its call chain is not present
under src/) is abstracted as the function argument `rou`. -/
def withModulus (rou : Nat → Nat → Nat) (tot : Nat → Nat) (order q : Nat) : ElementParams :=
  withCiphertextRootOfUnity tot order q (rou order q)

/-- source `params.rs`: `DcrtElementParams` — the limb chain plus the cached
composite modulus. -/
structure DcrtElementParams where
  params : List ElementParams
  ciphertextCompositeModulus : Nat
deriving DecidableEq, Repr

/-- source `params.rs`: `DcrtElementParamsBuilder` — the optional input
fields whose combination selects the build mode. -/
structure DcrtElementParamsBuilder where
  ciphertextOrder : Nat
  modulus : Option Nat
  depth : Option Nat
  bits : Option Nat
  moduli : Option (List Nat)
  rootsOfUnity : Option (List Nat)
  bigModuli : Option (List Nat)
  bigRootsOfUnity : Option (List Nat)

/-- target-modulus loop of `build` (`while composite_modulus < modulus`):
each pass draws the next prime from the stream (`previous_prime`; the
two-argument version called here is not present under src/ and is abstracted
as the stream `primes`), checks `to_odd` (panic on an even value), appends a
limb, and multiplies the running composite (U64 multiply, panic on
overflow).  `fuel` bounds the unboundedly-searching source loop. -/
def buildModulusLoop (mkEP : Nat → ElementParams) (primes : Nat → Nat) (target : Nat) :
    Nat → Nat → Nat → List ElementParams → Option DcrtElementParams
  | 0, _, _, _ => none
  | fuel + 1, idx, composite, acc =>
    if composite < target then
      let q := primes idx
      if q % 2 = 0 then none
      else
        match mulU64 composite q with
        | none => none
        | some c2 => buildModulusLoop mkEP primes target fuel (idx + 1) c2 (acc ++ [mkEP q])
    else some { params := acc, ciphertextCompositeModulus := composite }

/-- depth-mode loop of `build` (`for _ in 1..depth`), counting down the
remaining limbs. -/
def buildDepthLoop (mkEP : Nat → ElementParams) (primes : Nat → Nat) :
    Nat → Nat → Nat → List ElementParams → Option DcrtElementParams
  | 0, _, composite, acc => some { params := acc, ciphertextCompositeModulus := composite }
  | n + 1, idx, composite, acc =>
    let q := primes idx
    if q % 2 = 0 then none
    else
      match mulU64 composite q with
      | none => none
      | some c2 => buildDepthLoop mkEP primes n (idx + 1) c2 (acc ++ [mkEP q])

/-- explicit-moduli loop shared by the three list modes of `build`: for each
input item push a limb and multiply its modulus into the composite. -/
def buildListLoop {α : Type} (mkq : α → Nat) (mk : α → ElementParams) :
    List α → Nat → List ElementParams → Option DcrtElementParams
  | [], composite, acc => some { params := acc, ciphertextCompositeModulus := composite }
  | x :: rest, composite, acc =>
    match mulU64 composite (mkq x) with
    | none => none
    | some c2 => buildListLoop mkq mk rest c2 (acc ++ [mk x])

/-- target-modulus arm of `build` (`(Some(modulus), None, ...)`): an initial
generated prime (the `to_odd` expect panics on an even value) then the
search loop. -/
def dcrtBuildModulusMode (rou : Nat → Nat → Nat) (tot : Nat → Nat) (primes : Nat → Nat)
    (fuel order target : Nat) : Option DcrtElementParams :=
  let q0 := primes 0
  if q0 % 2 = 0 then none
  else buildModulusLoop (withModulus rou tot order) primes target fuel 1 q0
         [withModulus rou tot order q0]

/-- depth arm of `build` (`(None, Some(depth), bits, ...)`): rejects a bit
budget above `MAX_MODULUS_SIZE = 60`, then appends `depth − 1` further limbs
after the initial one. -/
def dcrtBuildDepthMode (rou : Nat → Nat → Nat) (tot : Nat → Nat) (primes : Nat → Nat)
    (order depth : Nat) (bits : Option Nat) : Option DcrtElementParams :=
  let bits := bits.getD 60
  if bits > 60 then none
  else
    let q0 := primes 0
    if q0 % 2 = 0 then none
    else buildDepthLoop (withModulus rou tot order) primes (depth - 1) 1 q0
           [withModulus rou tot order q0]

/-- explicit-moduli arm of `build` (`(None, None, None, Some(moduli), ...)`). -/
def dcrtBuildModuliMode (rou : Nat → Nat → Nat) (tot : Nat → Nat)
    (order : Nat) (moduli : List Nat) : Option DcrtElementParams :=
  buildListLoop id (withModulus rou tot order) moduli 1 []

/-- moduli-plus-roots arm of `build`: checks the two lengths agree
(`DcrtElementParamsMismatch` otherwise). -/
def dcrtBuildModuliRootsMode (tot : Nat → Nat) (order : Nat)
    (moduli roots : List Nat) : Option DcrtElementParams :=
  if moduli.length ≠ roots.length then none
  else buildListLoop Prod.fst
         (fun x => withCiphertextRootOfUnity tot order x.1 x.2)
         (moduli.zip roots) 1 []

/-- full arm of `build` with big moduli and big roots: checks all four
lengths agree. -/
def dcrtBuildBigMode (tot : Nat → Nat) (order : Nat)
    (moduli roots bigModuli bigRoots : List Nat) : Option DcrtElementParams :=
  if moduli.length ≠ roots.length ∨ moduli.length ≠ bigModuli.length ∨
      moduli.length ≠ bigRoots.length then none
  else buildListLoop (fun x => x.1.1)
         (fun x => withBigCiphertextParams tot order x.1.1 x.1.2 x.2.1 x.2.2)
         ((moduli.zip roots).zip (bigModuli.zip bigRoots)) 1 []

/-- source `params.rs` `DcrtElementParamsBuilder::build`: dispatch over the
supplied input combination.  `rou`/`tot` abstract the root-of-unity and
totient searches inside `ElementParams` construction; `primes` abstracts the
values produced by `crypto_primes::generate_prime` (index 0) and the
successive `previous_prime` calls; `fuel` bounds the target-modulus search
loop.  Any other input combination is the `DcrtElementParamsMismatch`
error. -/
def dcrtBuild (rou : Nat → Nat → Nat) (tot : Nat → Nat) (primes : Nat → Nat)
    (fuel : Nat) (b : DcrtElementParamsBuilder) : Option DcrtElementParams :=
  let order := b.ciphertextOrder
  match b.modulus, b.depth, b.bits, b.moduli, b.rootsOfUnity, b.bigModuli, b.bigRootsOfUnity with
  | some target, none, none, none, none, none, none =>
    dcrtBuildModulusMode rou tot primes fuel order target
  | none, some depth, bits, none, none, none, none =>
    dcrtBuildDepthMode rou tot primes order depth bits
  | none, none, none, some moduli, none, none, none =>
    dcrtBuildModuliMode rou tot order moduli
  | none, none, none, some moduli, some roots, none, none =>
    dcrtBuildModuliRootsMode tot order moduli roots
  | none, none, none, some moduli, some roots, some bigModuli, some bigRoots =>
    dcrtBuildBigMode tot order moduli roots bigModuli bigRoots
  | _, _, _, _, _, _, _ => none

/-- source `params.rs` `DcrtElementParams::pop_front`: remove the oldest limb
and divide the composite by its modulus (`to_nz` expect panics on a zero
modulus). -/
def dcrtPopFront (d : DcrtElementParams) : Option DcrtElementParams :=
  match d.params with
  | [] => some d
  | p :: rest =>
    if p.ciphertextModulus = 0 then none
    else some { params := rest,
                ciphertextCompositeModulus :=
                  d.ciphertextCompositeModulus / p.ciphertextModulus }

/-- source `params.rs` `DcrtElementParams::pop_back`: remove the newest limb
and divide the composite by its modulus. -/
def dcrtPopBack (d : DcrtElementParams) : Option DcrtElementParams :=
  match d.params.getLast? with
  | none => some d
  | some p =>
    if p.ciphertextModulus = 0 then none
    else some { params := d.params.dropLast,
                ciphertextCompositeModulus :=
                  d.ciphertextCompositeModulus / p.ciphertextModulus }

/-- the RNS invariant of claim C6: the cached composite modulus equals the
product of the limb moduli. -/
def dcrtInvariant (d : DcrtElementParams) : Prop :=
  d.ciphertextCompositeModulus = (d.params.map (·.ciphertextModulus)).prod

instance (d : DcrtElementParams) : Decidable (dcrtInvariant d) := by
  unfold dcrtInvariant; infer_instance

/-- source `discretegaussian.rs` `DiscreteGaussian::algorithm_p`:
`while n != 0 && algorithm_h { n -= 1 }; n < 0`.  The counter starts at the
caller's `k ≥ 0` (the count returned by `algorithm_g`) and is only
decremented while nonzero, so the final test `n < 0` is the point of
interest.  The float-driven `algorithm_h` outcomes are abstracted as the
boolean stream `h`, consumed at successive indices. -/
def algorithmP (h : Nat → Bool) : Nat → Nat → Bool
  | _, 0 => decide ((0 : Int) < 0)
  | idx, n + 1 => if h idx then algorithmP h (idx + 1) n else decide ((n + 1 : Int) < 0)

/-- one-iteration outcome of the portion of the Karney loop body after the
`algorithm_p` test: either another `continue` or a returned sample.  All its
float computations and the `algorithm_b` sub-loop are abstracted behind this
oracle, because the embedding shows the body never reaches it. -/
inductive KarneyStep where
  | cont
  | ret (z : Int)

/-- source `discretegaussian.rs` `DiscreteGaussian::gen_i32_karney`, loop
skeleton: each pass draws `k = algorithm_g(...)` (a nonnegative count,
abstracted as the stream `g`), runs `algorithm_p(rng, k)` and `continue`s
when it is false; only then would the rest of the body run (abstracted as
`rest`).  The source loop has no retry counter at all, so the embedding
carries `fuel` and reports `none` when it is exhausted while the loop is
still spinning. -/
def karneyLoop (g : Nat → Nat) (h : Nat → Nat → Bool) (rest : Nat → KarneyStep) :
    Nat → Nat → Option Int
  | _, 0 => none
  | t, fuel + 1 =>
    let k := g t
    if algorithmP (h t) 0 k = false then karneyLoop g h rest (t + 1) fuel
    else
      match rest t with
      | KarneyStep.ret z => some z
      | KarneyStep.cont => karneyLoop g h rest (t + 1) fuel

/-- source `discretegaussian.rs` `DiscreteGaussian::gen_i32_karney` (the
loop skeleton run from iteration 0 with a fuel bound that the claimed retry
ceiling would have to respect). -/
def genI32Karney (g : Nat → Nat) (h : Nat → Nat → Bool) (rest : Nat → KarneyStep)
    (fuel : Nat) : Option Int :=
  karneyLoop g h rest 0 fuel

/-- source `base_sampler.rs` `BaseSampler::gen_prob_matrix`, the loop filling
`probs`: the vector is created with `Vec::with_capacity(matrix_size)` — its
LENGTH is 0 — and the loop then assigns `probs[i + fin] = prob` by index for
`i` in `−fin..=fin`.  The float probability values are abstracted as `pdf`;
the fault is index bookkeeping and does not depend on them. -/
def genProbMatrixProbs {α : Type} (pdf : Int → α) (fin : Nat) : Option (List α) :=
  (List.range (2 * fin + 1)).foldlM
    (fun probs (t : Nat) =>
      let i : Int := (t : Int) - (fin : Int)
      setOpt probs (i + fin).toNat (pdf i))
    []

/-- source `base_sampler.rs` `BaseSampler::gen_prob_matrix` up to its second
out-of-bounds write `prob_matrix[matrix_size - 1] = ...` (also into a
`Vec::with_capacity` vector of length 0).  Everything after these writes
(the hamming-weight accumulation and `gen_ddg_tree`) is unreachable. -/
def genProbMatrixFill {α : Type} (pdf : Int → α) (errTop : α) (fin : Nat) :
    Option (List α × List α) := do
  let probs ← genProbMatrixProbs pdf fin
  let probMatrix ← setOpt ([] : List α) (2 * fin + 1 - 1) errTop
  return (probs, probMatrix)

/-- parameter set used by the concrete test inputs: cyclotomic order 8, ring
dimension 4, modulus 17 (the smallest prime ≡ 1 mod 8), root of unity 2 (a
primitive 8th root of unity mod 17). -/
def ep17 : ElementParams :=
  { ringDimension := 4, cyclotomicOrder := 8, ciphertextModulus := 17,
    rootOfUnity := 2, bigCiphertextModulus := 1, bigRootOfUnity := 0 }

/-- concrete Coefficient-format element for claim C1 (the constant
polynomial 1, stored in a `cyclotomic_order`-sized vector as
`Poly::zero`/`set_values` produce). -/
def c1Input : Poly :=
  { format := .Coefficient, params := ep17, values := [1, 0, 0, 0, 0, 0, 0, 0] }

/-- concrete operand for claim C2: the monomial `x^3` over `ep17`. -/
def c2Input : Poly :=
  { format := .Coefficient, params := ep17, values := [0, 0, 0, 1, 0, 0, 0, 0] }

/-- concrete element for claim C3: single nonzero coefficient 16 ≡ −1 mod
17, of centered magnitude 1 < min(17,5)/2. -/
def c3Input : Poly :=
  { format := .Coefficient, params := ep17, values := [16, 0, 0, 0, 0, 0, 0, 0] }

/-- concrete element for claim C4: the constant polynomial 1 over `ep17`. -/
def c4Input : Poly :=
  { format := .Coefficient, params := ep17, values := [1, 0, 0, 0, 0, 0, 0, 0] }

/-- the element `base_decompose` actually returns five copies of, on input
`c4Input`: every window is the all-zero constant polynomial. -/
def c4ZeroDigit : Poly :=
  { format := .Coefficient, params := ep17, values := List.replicate 8 0 }

/-- concrete element for claim C7: the monomial `x^1` over `ep17`. -/
def c7Input : Poly :=
  { format := .Coefficient, params := ep17, values := [0, 1, 0, 0, 0, 0, 0, 0] }

/-- first operand of the claim C5 counterexample: an Evaluation-format
element over `ep17` holding two values. -/
def c5DimA : Poly := { format := .Evaluation, params := ep17, values := [5, 7] }

/-- second operand of the claim C5 counterexample: same params and format as
`c5DimA` but only one stored value (a dimension mismatch). -/
def c5DimB : Poly := { format := .Evaluation, params := ep17, values := [4] }

/-- C1.  The claimed NTT round trip cannot hold on the code: for the valid
triple (17, 4, 2) — 2 is a primitive 8th root of unity mod 17 — and an input
with all entries in [0, 17), `Poly::ntt` already faults, because
`bit_reverse_permutation` swaps index `i` with the full 64-bit reversal of
`i` (`usize::reverse_bits`, giving 2^63 for `i = 1`) instead of the
reversal inside `log2(n)` bits, an out-of-bounds panic for every vector of
length ≥ 2.  Forward-then-inverse therefore faults instead of reproducing
the input. -/
theorem c1_ntt_round_trip_faults :
    polyNtt c1Input = none ∧ polyNttRoundTrip c1Input = none ∧
    powMod ep17.rootOfUnity 8 17 = 1 ∧ powMod ep17.rootOfUnity 4 17 ≠ 1 ∧
    c1Input.values.all (· < 17) = true := by
  refine ⟨by decide, by decide, by decide, by decide, by decide⟩

/-- C2.  NTT-based multiplication of two Coefficient-format elements over
N = 4, q = 17 does not equal the brute-force negacyclic convolution: the
product `x^3 · x^3` should be `−x^2`, i.e. the coefficient vector
[0, 0, 16, 0], but `Poly * Poly` faults unconditionally (its `ntt` call
dies in `bit_reverse_permutation`, as in C1) and returns no vector at
all. -/
theorem c2_ntt_mul_not_negacyclic :
    polyMulAssign c2Input c2Input = none ∧
    negacyclicConvolution [0, 0, 0, 1] [0, 0, 0, 1] 17 = [0, 0, 16, 0] := by
  refine ⟨by decide, by decide⟩

/-- C3.  The modulus-switch round trip 17 → 5 → 17 corrupts the coefficient
16 (centered value −1, magnitude 1 < min(17,5)/2 — exactly the range the
claim covers): `Poly::switch_modulus` reduces by a plain remainder instead
of delegating to `VecMod`'s centered-residue rule, giving 16 → 1 → 1; the
centered rule of `vec_mod.rs` (`RemAssign`) maps 16 → 4 → 16 and would
satisfy the claim. -/
theorem c3_switch_modulus_round_trip_fails :
    ((polySwitchModulus c3Input 5 2 1 0).bind
        (fun p => polySwitchModulus p 17 2 1 0)).map (fun p => p.values)
      = some [1, 0, 0, 0, 0, 0, 0, 0] ∧
    ([1, 0, 0, 0, 0, 0, 0, 0] : List Nat) ≠ c3Input.values ∧
    2 * (17 - 16) < 5 ∧
    vecModRemAssign (vecModRemAssign c3Input.values 17 5) 5 17 = c3Input.values := by
  refine ⟨by decide, by decide, by decide, by decide⟩

/-- C4.  `base_decompose(x, 1, false)` on the constant polynomial 1 over
q = 17 does return ⌈bits(17)/1⌉ = 5 elements (the count half of the claim
holds), but every element is the all-zero polynomial — the digit for window
`i` is read from the single coefficient `values[i + 1]` at bit offset
`1 + i`, not from each coefficient — so `Σ_i result[i]·2^i` is 0, not ≡ x
(whose constant coefficient is 1) mod 17. -/
theorem c4_base_decompose_gadget_fails :
    u64bits ep17.ciphertextModulus = 5 ∧
    polyBaseDecompose c4Input 1 false = some (List.replicate 5 c4ZeroDigit) ∧
    gadgetRecompose (List.replicate 5 c4ZeroDigit) 1 17 8 = List.replicate 8 0 ∧
    c4Input.values.map (· % 17) ≠ List.replicate 8 0 := by
  refine ⟨by decide, by decide, by decide, by decide⟩

/-- C7.  In the Coefficient domain, `automorphism_transform(3)` on `x^1`
over `ep17` (m = 8, N = 4) must — per the claim — put the original
coefficient 1 at index 1·3 mod 4 = 3 with no negation, giving
[0, 0, 0, 1, ...].  The code instead starts its running index `jk` at 0
rather than `k` and masks with `2^log2(m) − 1` rather than `N − 1`, so
coefficient `j` lands at `(j−1)·k mod 2N`: the result is
[1, 1, 0, 0, 0, 0, 0, 0], and index 3 holds 0, not the original
coefficient 1. -/
theorem c7_automorphism_coeff_diverges :
    (automorphismTransformCoeff c7Input 3).map (fun p => p.values)
      = some [1, 1, 0, 0, 0, 0, 0, 0] ∧
    ([1, 1, 0, 0, 0, 0, 0, 0] : List Nat)[3]? = some 0 ∧
    c7Input.values[1]? = some 1 := by
  refine ⟨by decide, by decide, by decide⟩

/-- C5 counterexample.  Two elements with identical params and identical
format but different dimensions (2 values vs 1 value): addition does not
fault — both asserts pass and the zip silently adds on the common prefix —
and returns a result, refuting "faults immediately and unconditionally"
for dimension mismatches. -/
theorem c5_dimension_mismatch_no_fault :
    c5DimA.values.length ≠ c5DimB.values.length ∧
    c5DimA.params = c5DimB.params ∧ c5DimA.format = c5DimB.format ∧
    polyAddAssign c5DimA c5DimB
      = some { format := .Evaluation, params := ep17, values := [9, 7] } := by
  refine ⟨by decide, by decide, by decide, by decide⟩

theorem revBits64_one : revBits64 1 = 2 ^ 63 := by decide

theorem revBits64_zero : revBits64 0 = 0 := by decide

theorem bitReversePermutation_eq_none {α : Type} (l : List α)
    (h2 : 2 ≤ l.length) (h63 : l.length < 2 ^ 63) :
    bitReversePermutation l = none := by
  unfold bitReversePermutation
  obtain ⟨m, hm⟩ : ∃ m, l.length = m + 2 := ⟨l.length - 2, by omega⟩
  simp only []
  rw [hm]
  rw [List.range_succ_eq_map, List.range_succ_eq_map, List.map_cons]
  rw [List.foldlM_cons]
  have step0 : (if 0 < revBits64 0 then swapOpt l 0 (revBits64 0) else some l) = some l := by
    rw [revBits64_zero]
    rfl
  rw [step0]
  show List.foldlM _ l _ = none
  rw [List.foldlM_cons]
  have hnone : l[revBits64 1]? = none := by
    rw [revBits64_one]
    exact List.getElem?_eq_none (by omega)
  have step1 : (if 1 < revBits64 1 then swapOpt l 1 (revBits64 1) else some l) = none := by
    rw [revBits64_one]
    have hsw : swapOpt l 1 (2 ^ 63) = none := by
      unfold swapOpt
      rw [revBits64_one] at hnone
      rw [hnone]
      cases l[1]? <;> rfl
    simpa using hsw
  rw [step1]
  rfl

theorem polyNtt_eq_none (a : Poly) (h2 : 2 ≤ a.values.length)
    (h63 : a.values.length < 2 ^ 63) :
    polyNtt a = none := by
  unfold polyNtt
  simp only []
  rw [bitReversePermutation_eq_none _ (by simpa using h2) (by simpa using h63)]
  rfl

/-- C5 (amended).  Addition and subtraction between two ring elements fault
exactly when the params (hence the modulus) or the format of the two
operands differ; a pure dimension mismatch (same params and format,
different value-vector lengths) passes both asserts and is combined
silently on the common prefix.  Multiplication performs no operand check at
all: for any left operand with at least two stored values it faults
unconditionally inside `ntt` (the `bit_reverse_permutation` out-of-bounds
panic), matched or not.  The length bound `2^63` reflects the address-space
bound of a real Rust vector. -/
theorem c5_mismatch_fault_amended (a b : Poly)
    (h2 : 2 ≤ a.values.length) (h63 : a.values.length < 2 ^ 63) :
    (polyAddAssign a b = none ↔ (a.params ≠ b.params ∨ a.format ≠ b.format)) ∧
    (polySubAssign a b = none ↔ (a.params ≠ b.params ∨ a.format ≠ b.format)) ∧
    polyMulAssign a b = none := by
  refine ⟨?_, ?_, ?_⟩
  · unfold polyAddAssign
    by_cases hp : a.params = b.params
    · by_cases hf : a.format = b.format
      · have hq : a.params.ciphertextModulus = b.params.ciphertextModulus := by rw [hp]
        simp [hp, hf, hq]
      · simp [hp, hf]
    · simp [hp]
  · unfold polySubAssign
    by_cases hp : a.params = b.params
    · by_cases hf : a.format = b.format
      · have hq : a.params.ciphertextModulus = b.params.ciphertextModulus := by rw [hp]
        simp [hp, hf, hq]
      · simp [hp, hf]
    · simp [hp]
  · unfold polyMulAssign
    rw [polyNtt_eq_none a h2 h63]
    rfl

/-- witness for the amended C5 theorem at the concrete pair `c5DimA`,
`c5DimB`. -/
theorem c5_mismatch_fault_amended_witness :
    2 ≤ c5DimA.values.length ∧
    ((polyAddAssign c5DimA c5DimB = none ↔
        (c5DimA.params ≠ c5DimB.params ∨ c5DimA.format ≠ c5DimB.format)) ∧
     (polySubAssign c5DimA c5DimB = none ↔
        (c5DimA.params ≠ c5DimB.params ∨ c5DimA.format ≠ c5DimB.format)) ∧
     polyMulAssign c5DimA c5DimB = none) :=
  ⟨by decide, c5_mismatch_fault_amended c5DimA c5DimB (by decide) (by decide)⟩

theorem mulU64_eq_some {a b c : Nat} (h : mulU64 a b = some c) : c = a * b := by
  unfold mulU64 at h
  by_cases hlt : a * b < U64_SIZE
  · rw [if_pos hlt] at h
    exact (Option.some_inj.mp h).symm
  · rw [if_neg hlt] at h
    cases h

theorem buildListLoop_inv {α : Type} (mkq : α → Nat) (mk : α → ElementParams)
    (hmk : ∀ x, (mk x).ciphertextModulus = mkq x) :
    ∀ (xs : List α) (composite : Nat) (acc : List ElementParams) (d : DcrtElementParams),
      composite = (acc.map (·.ciphertextModulus)).prod →
      buildListLoop mkq mk xs composite acc = some d → dcrtInvariant d := by
  intro xs
  induction xs with
  | nil =>
    intro composite acc d hc hb
    unfold buildListLoop at hb
    obtain rfl := Option.some_inj.mp hb
    exact hc
  | cons x rest ih =>
    intro composite acc d hc hb
    unfold buildListLoop at hb
    cases hmul : mulU64 composite (mkq x) with
    | none => rw [hmul] at hb; cases hb
    | some c2 =>
      rw [hmul] at hb
      refine ih c2 (acc ++ [mk x]) d ?_ hb
      rw [mulU64_eq_some hmul, hc]
      simp [hmk]

theorem buildDepthLoop_inv (mkEP : Nat → ElementParams) (primes : Nat → Nat)
    (hmk : ∀ q, (mkEP q).ciphertextModulus = q) :
    ∀ (n idx composite : Nat) (acc : List ElementParams) (d : DcrtElementParams),
      composite = (acc.map (·.ciphertextModulus)).prod →
      buildDepthLoop mkEP primes n idx composite acc = some d → dcrtInvariant d := by
  intro n
  induction n with
  | zero =>
    intro idx composite acc d hc hb
    unfold buildDepthLoop at hb
    obtain rfl := Option.some_inj.mp hb
    exact hc
  | succ m ih =>
    intro idx composite acc d hc hb
    unfold buildDepthLoop at hb
    by_cases he : primes idx % 2 = 0
    · rw [if_pos he] at hb; cases hb
    · rw [if_neg he] at hb
      cases hmul : mulU64 composite (primes idx) with
      | none => rw [hmul] at hb; cases hb
      | some c2 =>
        rw [hmul] at hb
        refine ih (idx + 1) c2 (acc ++ [mkEP (primes idx)]) d ?_ hb
        rw [mulU64_eq_some hmul, hc]
        simp [hmk]

theorem buildModulusLoop_inv (mkEP : Nat → ElementParams) (primes : Nat → Nat)
    (target : Nat) (hmk : ∀ q, (mkEP q).ciphertextModulus = q) :
    ∀ (fuel idx composite : Nat) (acc : List ElementParams) (d : DcrtElementParams),
      composite = (acc.map (·.ciphertextModulus)).prod →
      buildModulusLoop mkEP primes target fuel idx composite acc = some d →
      dcrtInvariant d := by
  intro fuel
  induction fuel with
  | zero =>
    intro idx composite acc d hc hb
    cases hb
  | succ m ih =>
    intro idx composite acc d hc hb
    unfold buildModulusLoop at hb
    by_cases hlt : composite < target
    · rw [if_pos hlt] at hb
      by_cases he : primes idx % 2 = 0
      · rw [if_pos he] at hb; cases hb
      · rw [if_neg he] at hb
        cases hmul : mulU64 composite (primes idx) with
        | none => rw [hmul] at hb; cases hb
        | some c2 =>
          rw [hmul] at hb
          refine ih (idx + 1) c2 (acc ++ [mkEP (primes idx)]) d ?_ hb
          rw [mulU64_eq_some hmul, hc]
          simp [hmk]
    · rw [if_neg hlt] at hb
      obtain rfl := Option.some_inj.mp hb
      exact hc

theorem dcrtPopFront_inv (d d2 : DcrtElementParams) (h : dcrtInvariant d)
    (h2 : dcrtPopFront d = some d2) : dcrtInvariant d2 := by
  unfold dcrtPopFront at h2
  split at h2
  · obtain rfl := Option.some_inj.mp h2
    exact h
  · rename_i p rest hp
    split at h2
    · cases h2
    · rename_i hz
      obtain rfl := Option.some_inj.mp h2
      unfold dcrtInvariant at h ⊢
      rw [hp] at h
      simp only [List.map_cons, List.prod_cons] at h
      simp only [h]
      exact Nat.mul_div_cancel_left _ (Nat.pos_of_ne_zero hz)

theorem dcrtPopBack_inv (d d2 : DcrtElementParams) (h : dcrtInvariant d)
    (h2 : dcrtPopBack d = some d2) : dcrtInvariant d2 := by
  unfold dcrtPopBack at h2
  split at h2
  · obtain rfl := Option.some_inj.mp h2
    exact h
  · rename_i p hp
    split at h2
    · cases h2
    · rename_i hz
      obtain rfl := Option.some_inj.mp h2
      unfold dcrtInvariant at h ⊢
      have hsplit : d.params.dropLast ++ [p] = d.params :=
        List.dropLast_append_getLast? p (by rw [hp]; rfl)
      rw [← hsplit] at h
      simp only [List.map_append, List.prod_append, List.map_cons, List.prod_cons,
        List.map_nil, List.prod_nil, mul_one] at h
      simp only [h]
      exact Nat.mul_div_cancel _ (Nat.pos_of_ne_zero hz)

theorem dcrtBuildModulusMode_inv (rou : Nat → Nat → Nat) (tot : Nat → Nat)
    (primes : Nat → Nat) (fuel order target : Nat) (d : DcrtElementParams)
    (h : dcrtBuildModulusMode rou tot primes fuel order target = some d) :
    dcrtInvariant d := by
  unfold dcrtBuildModulusMode at h
  by_cases hq : primes 0 % 2 = 0
  · rw [if_pos hq] at h; cases h
  · rw [if_neg hq] at h
    refine buildModulusLoop_inv _ primes target (fun q => rfl) fuel 1 (primes 0) _ d ?_ h
    simp [withModulus, withCiphertextRootOfUnity, withBigCiphertextParams]

theorem dcrtBuildDepthMode_inv (rou : Nat → Nat → Nat) (tot : Nat → Nat)
    (primes : Nat → Nat) (order depth : Nat) (bits : Option Nat) (d : DcrtElementParams)
    (h : dcrtBuildDepthMode rou tot primes order depth bits = some d) :
    dcrtInvariant d := by
  unfold dcrtBuildDepthMode at h
  by_cases hbits : bits.getD 60 > 60
  · rw [if_pos hbits] at h; cases h
  · rw [if_neg hbits] at h
    by_cases hq : primes 0 % 2 = 0
    · rw [if_pos hq] at h; cases h
    · rw [if_neg hq] at h
      refine buildDepthLoop_inv _ primes (fun q => rfl) (depth - 1) 1 (primes 0) _ d ?_ h
      simp [withModulus, withCiphertextRootOfUnity, withBigCiphertextParams]

theorem dcrtBuildModuliMode_inv (rou : Nat → Nat → Nat) (tot : Nat → Nat)
    (order : Nat) (moduli : List Nat) (d : DcrtElementParams)
    (h : dcrtBuildModuliMode rou tot order moduli = some d) :
    dcrtInvariant d := by
  unfold dcrtBuildModuliMode at h
  exact buildListLoop_inv id (withModulus rou tot order) (fun x => rfl) moduli 1 [] d
    (by simp) h

theorem dcrtBuildModuliRootsMode_inv (tot : Nat → Nat) (order : Nat)
    (moduli roots : List Nat) (d : DcrtElementParams)
    (h : dcrtBuildModuliRootsMode tot order moduli roots = some d) :
    dcrtInvariant d := by
  unfold dcrtBuildModuliRootsMode at h
  by_cases hlen : moduli.length ≠ roots.length
  · rw [if_pos hlen] at h; cases h
  · rw [if_neg hlen] at h
    exact buildListLoop_inv Prod.fst (fun x => withCiphertextRootOfUnity tot order x.1 x.2)
      (fun x => rfl) (moduli.zip roots) 1 [] d (by simp) h

theorem dcrtBuildBigMode_inv (tot : Nat → Nat) (order : Nat)
    (moduli roots bigModuli bigRoots : List Nat) (d : DcrtElementParams)
    (h : dcrtBuildBigMode tot order moduli roots bigModuli bigRoots = some d) :
    dcrtInvariant d := by
  unfold dcrtBuildBigMode at h
  by_cases hlen : moduli.length ≠ roots.length ∨ moduli.length ≠ bigModuli.length ∨
      moduli.length ≠ bigRoots.length
  · rw [if_pos hlen] at h; cases h
  · rw [if_neg hlen] at h
    exact buildListLoop_inv (fun x => x.1.1)
      (fun x => withBigCiphertextParams tot order x.1.1 x.1.2 x.2.1 x.2.2) (fun x => rfl)
      ((moduli.zip roots).zip (bigModuli.zip bigRoots)) 1 [] d (by simp) h

/-- C6.  Every `DcrtElementParams` produced by any build mode satisfies the
RNS invariant — the stored composite equals the product of the limb
moduli — and the invariant is preserved by `pop_front` and `pop_back`, both
on the freshly built value (`d`) and on any value already satisfying the
invariant (`e`). -/
theorem c6_rns_composite_invariant
    (rou : Nat → Nat → Nat) (tot : Nat → Nat) (primes : Nat → Nat) (fuel : Nat)
    (b : DcrtElementParamsBuilder) (d df db e ef eb : DcrtElementParams)
    (hbuild : dcrtBuild rou tot primes fuel b = some d)
    (hdf : dcrtPopFront d = some df) (hdb : dcrtPopBack d = some db)
    (he : dcrtInvariant e)
    (hef : dcrtPopFront e = some ef) (heb : dcrtPopBack e = some eb) :
    dcrtInvariant d ∧ dcrtInvariant df ∧ dcrtInvariant db ∧
    dcrtInvariant ef ∧ dcrtInvariant eb := by
  have hd : dcrtInvariant d := by
    unfold dcrtBuild at hbuild
    split at hbuild
    · exact dcrtBuildModulusMode_inv _ _ _ _ _ _ _ hbuild
    · exact dcrtBuildDepthMode_inv _ _ _ _ _ _ _ hbuild
    · exact dcrtBuildModuliMode_inv _ _ _ _ _ hbuild
    · exact dcrtBuildModuliRootsMode_inv _ _ _ _ _ hbuild
    · exact dcrtBuildBigMode_inv _ _ _ _ _ _ _ hbuild
    · cases hbuild
  exact ⟨hd, dcrtPopFront_inv d df hd hdf, dcrtPopBack_inv d db hd hdb,
    dcrtPopFront_inv e ef he hef, dcrtPopBack_inv e eb he heb⟩

/-- builder input for the C6 witness: explicit moduli [3, 5]. -/
def c6Builder : DcrtElementParamsBuilder :=
  { ciphertextOrder := 8, modulus := none, depth := none, bits := none,
    moduli := some [3, 5], rootsOfUnity := none, bigModuli := none,
    bigRootsOfUnity := none }

/-- limb over modulus 3 built by the C6 witness (oracles returning 0). -/
def c6EpA : ElementParams :=
  { ringDimension := 0, cyclotomicOrder := 8, ciphertextModulus := 3,
    rootOfUnity := 0, bigCiphertextModulus := 1, bigRootOfUnity := 0 }

/-- limb over modulus 5 built by the C6 witness. -/
def c6EpB : ElementParams :=
  { ringDimension := 0, cyclotomicOrder := 8, ciphertextModulus := 5,
    rootOfUnity := 0, bigCiphertextModulus := 1, bigRootOfUnity := 0 }

/-- the chain the C6 witness builds: limbs [3, 5], composite 15. -/
def c6DW : DcrtElementParams :=
  { params := [c6EpA, c6EpB], ciphertextCompositeModulus := 15 }

/-- the C6 witness chain after `pop_front`. -/
def c6DfW : DcrtElementParams :=
  { params := [c6EpB], ciphertextCompositeModulus := 5 }

/-- the C6 witness chain after `pop_back`. -/
def c6DbW : DcrtElementParams :=
  { params := [c6EpA], ciphertextCompositeModulus := 3 }

/-- witness for the C6 theorem at a concrete explicit-moduli build. -/
theorem c6_rns_composite_invariant_witness :
    dcrtInvariant c6DW ∧ dcrtInvariant c6DfW ∧ dcrtInvariant c6DbW ∧
    dcrtInvariant c6DfW ∧ dcrtInvariant c6DbW :=
  c6_rns_composite_invariant (fun _ _ => 0) (fun _ => 0) (fun _ => 0) 0 c6Builder
    c6DW c6DfW c6DbW c6DW c6DfW c6DbW (by decide) (by decide) (by decide) (by decide)
    (by decide) (by decide)

theorem algorithmP_eq_false (h : Nat → Bool) : ∀ (n idx : Nat), algorithmP h idx n = false := by
  intro n
  induction n with
  | zero => intro idx; simp [algorithmP]
  | succ m ih =>
    intro idx
    unfold algorithmP
    by_cases hb : h idx
    · simp [hb, ih]
    · simp [hb]
      omega

/-- C8.  The Karney sampler's rejection loop carries no retry ceiling and
never faults: for EVERY oracle behavior (every sequence of `algorithm_g`
counts, every sequence of `algorithm_h` outcomes, and every possible
behavior of the rest of the loop body) and every iteration bound `fuel`,
the loop is still running — because the ported `algorithm_p` exit test
`n < 0` is unsatisfiable (the counter is a count ≥ 0 decremented only while
nonzero), every pass takes the `continue`, and the function can never
return.  This refutes the claim that every rejection loop in the discrete
Gaussian samplers is bounded and faults loudly on exhaustion. -/
theorem c8_karney_no_retry_ceiling (g : Nat → Nat) (h : Nat → Nat → Bool)
    (rest : Nat → KarneyStep) (fuel : Nat) :
    genI32Karney g h rest fuel = none := by
  suffices H : ∀ f t, karneyLoop g h rest t f = none from H fuel 0
  intro f
  induction f with
  | zero => intro t; rfl
  | succ m ih =>
    intro t
    unfold karneyLoop
    simp [algorithmP_eq_false, ih]

/-- C9.  Constructing the Knuth-Yao probability matrix always faults, for
every standard deviation (every support bound `fin`) and every probability
function: `probs` and `prob_matrix` are created with `Vec::with_capacity`
(length 0) and then written by index, so the very first store
`probs[0]` (for `i = −fin`) is out of bounds — `BaseSampler::new` with the
KnuthYao variant can never complete. -/
theorem c9_knuth_yao_construction_faults {α : Type} (pdf : Int → α) (errTop : α)
    (fin : Nat) :
    genProbMatrixFill pdf errTop fin = none := by
  have hprobs : genProbMatrixProbs pdf fin = none := by
    unfold genProbMatrixProbs
    rw [List.range_succ_eq_map]
    rw [List.foldlM_cons]
    have h0 : setOpt ([] : List α) (((0 : Int) - (fin : Int)) + fin).toNat
        (pdf ((0 : Int) - (fin : Int))) = none := by
      simp [setOpt]
    simp only [Nat.cast_zero] at h0 ⊢
    rw [h0]
    rfl
  unfold genProbMatrixFill
  rw [hprobs]
  rfl

/-- C10.  Scalar addition is format-dependent and frame-preserving: on a
Coefficient element only slot 0 changes, to `(old + c) mod q`; on an
Evaluation element every slot gets `+ c mod q`; in both cases format,
params and vector length are unchanged.  A nonempty value vector is
required because the Coefficient branch indexes `values[0]`. -/
theorem c10_scalar_add_frame (p : Poly) (c : Nat) (h0 : 0 < p.values.length) :
    ∃ r, polyScalarAdd p c = some r ∧ r.format = p.format ∧ r.params = p.params ∧
      r.values.length = p.values.length ∧
      (p.format = .Coefficient →
        r.values[0]? = (p.values[0]?).map
          (fun v => (v + c) % p.params.ciphertextModulus) ∧
        ∀ i : Nat, i ≠ 0 → r.values[i]? = p.values[i]?) ∧
      (p.format = .Evaluation →
        ∀ i : Nat, r.values[i]? = (p.values[i]?).map
          (fun v => (v + c) % p.params.ciphertextModulus)) := by
  cases hf : p.format with
  | Coefficient =>
    obtain ⟨v0, hv0⟩ : ∃ v0, p.values[0]? = some v0 :=
      ⟨p.values[0], List.getElem?_eq_getElem h0⟩
    refine ⟨{ p with values := p.values.set 0 ((v0 + c) % p.params.ciphertextModulus) },
      ?_, hf, rfl, by simp, ?_, ?_⟩
    · unfold polyScalarAdd
      rw [hf, hv0]
      rfl
    · intro _
      refine ⟨?_, ?_⟩
      · rw [hv0]
        show (p.values.set 0 _)[0]? = _
        rw [List.getElem?_set_self h0]
        rfl
      · intro i hi
        show (p.values.set 0 _)[i]? = _
        rw [List.getElem?_set_ne (by omega)]
    · intro hev
      exact absurd hev (by decide)
  | Evaluation =>
    refine ⟨{ p with values := p.values.map (fun v => (v + c) % p.params.ciphertextModulus) },
      ?_, hf, rfl, by simp, ?_, ?_⟩
    · unfold polyScalarAdd
      rw [hf]
    · intro hco
      exact absurd hco (by decide)
    · intro _ i
      simp

/-- concrete Coefficient-format input for the C10 witness. -/
def c10Input : Poly := { format := .Coefficient, params := ep17, values := [15, 3, 0, 0] }

/-- witness for the C10 theorem at `c10Input` with scalar 5. -/
theorem c10_scalar_add_frame_witness :
    0 < c10Input.values.length ∧
    (∃ r, polyScalarAdd c10Input 5 = some r ∧ r.format = c10Input.format ∧
      r.params = c10Input.params ∧
      r.values.length = c10Input.values.length ∧
      (c10Input.format = .Coefficient →
        r.values[0]? = (c10Input.values[0]?).map
          (fun v => (v + 5) % c10Input.params.ciphertextModulus) ∧
        ∀ i : Nat, i ≠ 0 → r.values[i]? = c10Input.values[i]?) ∧
      (c10Input.format = .Evaluation →
        ∀ i : Nat, r.values[i]? = (c10Input.values[i]?).map
          (fun v => (v + 5) % c10Input.params.ciphertextModulus))) :=
  ⟨by decide, c10_scalar_add_frame c10Input 5 (by decide)⟩

end OpenFheRs
